import Mathlib

/-!
# msicrafter transform engine — verification of the specification claims

Shallow embedding of the transform engine of the `msicrafter` repository:
the diff-line parser and SQL builder (`core/apply_transform.go`), the table
diff computer (`core/msi_transform.go`), and the panic-safe execution /
retry layer (`core/error_handler.go`).

Go strings are modelled as `List Char` (`Str`).  The Go standard-library
string helpers used by the code (`strings.TrimSpace`, `strings.SplitN`,
`strings.Split`, `strings.Join`, `strings.ToUpper`, `strings.ToLower`,
`strings.Contains`, `strings.ReplaceAll`) are modelled by the executable
functions below, each faithful to the Go implementation on the operations
the code performs.
-/

/-- Go strings, modelled as lists of characters. -/
abbrev Str := List Char

/-- The whitespace predicate of Go's `unicode.IsSpace`, used by
`strings.TrimSpace`: tab, newline, vertical tab, form feed, carriage
return, space, NEL, NBSP and the Unicode space separators. -/
def goIsSpace (c : Char) : Bool :=
  c ∈ ([Char.ofNat 9, Char.ofNat 10, Char.ofNat 11, Char.ofNat 12,
        Char.ofNat 13, ' ', Char.ofNat 0x85, Char.ofNat 0xA0,
        Char.ofNat 0x1680, Char.ofNat 0x2000, Char.ofNat 0x2001,
        Char.ofNat 0x2002, Char.ofNat 0x2003, Char.ofNat 0x2004,
        Char.ofNat 0x2005, Char.ofNat 0x2006, Char.ofNat 0x2007,
        Char.ofNat 0x2008, Char.ofNat 0x2009, Char.ofNat 0x200A,
        Char.ofNat 0x2028, Char.ofNat 0x2029, Char.ofNat 0x202F,
        Char.ofNat 0x205F, Char.ofNat 0x3000] : List Char)

/-- Right half of `strings.TrimSpace`: drop trailing whitespace. -/
def trimRight (s : Str) : Str :=
  (s.reverse.dropWhile goIsSpace).reverse

/-- Go's `strings.TrimSpace`: drop leading and trailing whitespace. -/
def goTrimSpace (s : Str) : Str :=
  trimRight (s.dropWhile goIsSpace)

/-- Split at the first occurrence of `sep` (non-empty): returns the parts
before and after it, or `none` when `sep` does not occur.  This models
`strings.SplitN(s, sep, 2)`, which yields two parts exactly when `sep`
occurs in `s`. -/
def splitFirst (sep : Str) : Str → Option (Str × Str)
  | [] => none
  | c :: rest =>
    if sep.isPrefixOf (c :: rest) then some ([], (c :: rest).drop sep.length)
    else
      match splitFirst sep rest with
      | some (pre, post) => some (c :: pre, post)
      | none => none

/-- Go's `strings.Split(s, "|")`. -/
def splitPipe : Str → List Str
  | [] => [[]]
  | c :: rest =>
    if c = '|' then [] :: splitPipe rest
    else
      match splitPipe rest with
      | [] => [[c]]
      | x :: xs => (c :: x) :: xs

/-- Go's `strings.Join(vs, "|")`. -/
def joinPipe : List Str → Str
  | [] => []
  | [v] => v
  | v :: w :: ws => v ++ '|' :: joinPipe (w :: ws)

/-- The literal separator `"=>"` of the diff-line grammar. -/
def sepArrow : Str := ['=', '>']

/-- `parseDiffLine` from `core/apply_transform.go`: parses a diff line of
the form `"+ TableName => value1|value2|value3"` (or with `-`).  Returns
`(operation, table, values)` or an error for a malformed line. -/
def parseDiffLine (line : Str) : Except Str (Str × Str × List Str) :=
  match goTrimSpace line with
  | [] => Except.error ("empty line".data)
  | c :: rest =>
    let operation : Str := [c]
    if c = '+' ∨ c = '-' then
      match splitFirst sepArrow rest with
      | none => Except.error ("invalid diff line format".data)
      | some (p0, p1) =>
        let table := goTrimSpace p0
        let valueStr := goTrimSpace p1
        if valueStr = [] then Except.ok (operation, table, ([] : List Str))
        else Except.ok (operation, table, (splitPipe valueStr).map goTrimSpace)
    else Except.error ("invalid operation: ".data ++ operation)

/-- `parseDiffLine` from the other revision of `core/apply_transform.go`
kept in the repository (src/unnamed/part_006).  It additionally requires
lines of length at least 3 and a non-empty table name. -/
def parseDiffLineV2 (line : Str) : Except Str (Str × Str × List Str) :=
  let l := goTrimSpace line
  if l.length < 3 then Except.error ("invalid line".data)
  else
    match l with
    | [] => Except.error ("invalid line".data)
    | c :: rest =>
      let op : Str := [c]
      if c = '+' ∨ c = '-' then
        match splitFirst sepArrow rest with
        | none => Except.error ("missing arrow".data)
        | some (p0, p1) =>
          let table := goTrimSpace p0
          let valStr := goTrimSpace p1
          if table = [] then Except.error ("no table name found".data)
          else if valStr = [] then Except.ok (op, table, ([] : List Str))
          else Except.ok (op, table, (splitPipe valStr).map goTrimSpace)
      else Except.error ("invalid op".data)

deriving instance DecidableEq for Except

/-- Diff operation marker: `+` (Add) or `-` (Remove). -/
inductive Op where
  | add
  | remove
deriving DecidableEq, Repr

/-- The operator character written by the diff computer. -/
def opChar : Op → Char
  | Op.add => '+'
  | Op.remove => '-'

/-- A diff record: operation, table name, ordered values (spec §3). -/
structure DiffRecord where
  operation : Op
  table : Str
  values : List Str
deriving DecidableEq, Repr

/-- A table row: ordered column values (`TableRow` in `core/msi_tables.go`). -/
structure TableRow where
  Columns : List Str
deriving DecidableEq, Repr

/-- The membership key of a row used by `compareTableRows`:
`strings.Join(row.Columns, "|")`. -/
def rowKey (r : TableRow) : Str := joinPipe r.Columns

/-- Serialization of one diff record to a line, as `compareTableRows`
writes it with `fmt.Sprintf("%s %s => %s", ...)` (without the trailing
newline): operator, space, table, `" => "`, values joined with `"|"`. -/
def serializeDiffRecord (r : DiffRecord) : Str :=
  opChar r.operation :: ' ' :: (r.table ++ (' ' :: '=' :: '>' :: ' ' :: joinPipe r.values))

/-- One output line of `compareTableRows`, trailing newline included. -/
def diffLine (o : Op) (table k : Str) : Str :=
  opChar o :: ' ' :: (table ++ (' ' :: '=' :: '>' :: ' ' :: k)) ++ [Char.ofNat 10]

/-- `parseDiffLine` lifted to a `DiffRecord`: the string operation `"+"`
maps to `Op.add` and `"-"` to `Op.remove` (the only two the parser
accepts). -/
def parseRecord (line : Str) : Except Str DiffRecord :=
  match parseDiffLine line with
  | Except.error e => Except.error e
  | Except.ok (op, table, values) =>
    Except.ok ⟨if op = "+".data then Op.add else Op.remove, table, values⟩

/-- The key set of a row list, modelling the Go map `map[string]bool`
built by `compareTableRows`: one entry per distinct key.  Go iterates map
keys in an unspecified order; this model fixes first-insertion order (the
claims proved below do not depend on the order). -/
def keySet (rows : List TableRow) : List Str :=
  rows.foldl (fun acc r => if rowKey r ∈ acc then acc else acc ++ [rowKey r]) []

/-- `compareTableRows` from `core/msi_transform.go`: emits a `+` line for
every key present in `mod` but not in `orig`, then a `-` line for every
key present in `orig` but not in `mod`; returns the concatenation (the
empty string when there are no differences). -/
def compareTableRows (table : Str) (orig mod : List TableRow) : Str :=
  let origKeys := keySet orig
  let modKeys := keySet mod
  let additions := modKeys.filter (fun k => decide (k ∉ origKeys))
  let deletions := origKeys.filter (fun k => decide (k ∉ modKeys))
  (additions.map (fun k => diffLine Op.add table k)).flatten ++
    (deletions.map (fun k => diffLine Op.remove table k)).flatten

/-! ## The transform applier (`ApplyTransform` in `core/apply_transform.go`)

The target database is an external COM collaborator; it is modelled by an
`Oracle` giving the outcome of each call, and `ApplyTransform` returns,
next to its `error` result, the trace of database calls it made
(`OpenDatabase`, `OpenView`/`Execute` per statement position, `Commit`).
The file read, COM initialization and the progress spinner carry no
database effects and are outside the model; the document is given as its
list of lines. -/

/-- The apostrophe character (single quote). -/
def quoteChar : Char := Char.ofNat 39

/-- Go's `strings.ReplaceAll(v, "'", "''")`: double every single quote. -/
def escapeQuotes (v : Str) : Str :=
  v.foldr (fun c acc => if c = quoteChar then quoteChar :: quoteChar :: acc else c :: acc) []

/-- Go's `strings.Join(parts, sep)`. -/
def joinSep (sep : Str) : List Str → Str
  | [] => []
  | [v] => v
  | v :: w :: ws => v ++ sep ++ joinSep sep (w :: ws)

/-- ASCII lower-casing of Go's `strings.ToLower` (the code only compares
against the ASCII literals `"y"`/`"yes"`). -/
def goToLowerChar (c : Char) : Char :=
  if 'A' ≤ c ∧ c ≤ 'Z' then Char.ofNat (c.toNat + 32) else c

/-- Go's `strings.ToLower`, ASCII part. -/
def goToLower (s : Str) : Str := s.map goToLowerChar

/-- The statement built from one parsed diff record by the query switch
of `ApplyTransform`: an INSERT for `+`, a DELETE on generated positional
column names `COL1, COL2, …` for `-`, nothing for any other operation
(the `default: continue` branch, unreachable after parsing). -/
def buildQuery (op table : Str) (values : List Str) : Option Str :=
  if op = "+".data then
    some ("INSERT INTO `".data ++ table ++ "` VALUES (".data ++
      joinSep (", ".data)
        (values.map (fun v => quoteChar :: (escapeQuotes v ++ [quoteChar]))) ++ ")".data)
  else if op = "-".data then
    some ("DELETE FROM `".data ++ table ++ "` WHERE ".data ++
      joinSep (" AND ".data)
        (values.enum.map (fun p => "COL".data ++ (Nat.repr (p.1 + 1)).data ++
          "=".data ++ (quoteChar :: (escapeQuotes p.2 ++ [quoteChar])))))
  else none

/-- The statement-building loop of `ApplyTransform`: skip blank lines,
skip lines `parseDiffLine` rejects (logged warning in the code), convert
the rest. -/
def buildQueries : List Str → List Str
  | [] => []
  | line :: rest =>
    if goTrimSpace line = [] then buildQueries rest
    else
      match parseDiffLine line with
      | Except.error _ => buildQueries rest
      | Except.ok (op, table, values) =>
        match buildQuery op table values with
        | some q => q :: buildQueries rest
        | none => buildQueries rest

/-- A database call made by the applier.  `openView`/`execute` carry the
position of the statement in the built query list and its text. -/
inductive Event where
  | openDb
  | openView (i : Nat) (q : Str)
  | execute (i : Nat) (q : Str)
  | commit
deriving DecidableEq, Repr

/-- Outcomes of the external database collaborator and of stdin reads. -/
structure Oracle where
  openDatabase : Except Str Unit
  openView : Str → Except Str Unit
  execute : Str → Except Str Unit
  commit : Except Str Unit
  readLine : Nat → Except Str Str

/-- One iteration body of the query loop after interactive confirmation:
dry-run logs and continues; otherwise `OpenView` then `Execute`, each
aborting on error. -/
def execStep (o : Oracle) (dryRun : Bool) (q : Str) (i : Nat) :
    Except Str Unit × List Event :=
  if dryRun then (Except.ok (), [])
  else
    match o.openView q with
    | Except.error e =>
      (Except.error ("OpenView error for query [".data ++ q ++ "]: ".data ++ e),
        [Event.openView i q])
    | Except.ok _ =>
      match o.execute q with
      | Except.error e =>
        (Except.error ("Execute error for query [".data ++ q ++ "]: ".data ++ e),
          [Event.openView i q, Event.execute i q])
      | Except.ok _ => (Except.ok (), [Event.openView i q, Event.execute i q])

/-- The query loop of `ApplyTransform`: per statement, optional
interactive confirmation (a failed stdin read aborts; a non-affirmative
answer skips), then `execStep`.  Execution aborts on the first failing
statement. -/
def runQueries (o : Oracle) (dryRun interactive : Bool) :
    List Str → Nat → Except Str Unit × List Event
  | [], _ => (Except.ok (), [])
  | q :: rest, i =>
    if interactive then
      match o.readLine i with
      | Except.error e => (Except.error ("failed to read input: ".data ++ e), [])
      | Except.ok resp =>
        if goTrimSpace (goToLower resp) = "y".data ∨
            goTrimSpace (goToLower resp) = "yes".data then
          match execStep o dryRun q i with
          | (Except.ok _, evs) =>
            let res := runQueries o dryRun interactive rest (i + 1)
            (res.1, evs ++ res.2)
          | (Except.error e, evs) => (Except.error e, evs)
        else runQueries o dryRun interactive rest (i + 1)
    else
      match execStep o dryRun q i with
      | (Except.ok _, evs) =>
        let res := runQueries o dryRun interactive rest (i + 1)
        (res.1, evs ++ res.2)
      | (Except.error e, evs) => (Except.error e, evs)

/-- `ApplyTransform` from `core/apply_transform.go`: open the target
database in write mode, build the statements from the document lines,
run the query loop, and, when not in dry-run mode, `Commit`.  Returns the
Go function's error result paired with the trace of database calls. -/
def ApplyTransform (o : Oracle) (doc : List Str) (dryRun interactive : Bool) :
    Except Str Unit × List Event :=
  match o.openDatabase with
  | Except.error e => (Except.error ("OpenDatabase error: ".data ++ e), [Event.openDb])
  | Except.ok _ =>
    let queries := buildQueries doc
    match runQueries o dryRun interactive queries 0 with
    | (Except.error e, evs) => (Except.error e, Event.openDb :: evs)
    | (Except.ok _, evs) =>
      if dryRun then (Except.ok (), Event.openDb :: evs)
      else
        match o.commit with
        | Except.error e =>
          (Except.error ("Commit error: ".data ++ e), Event.openDb :: (evs ++ [Event.commit]))
        | Except.ok _ => (Except.ok (), Event.openDb :: (evs ++ [Event.commit]))

/-- An oracle on which every database call and stdin read succeeds. -/
def allOkOracle : Oracle where
  openDatabase := Except.ok ()
  openView := fun _ => Except.ok ()
  execute := fun _ => Except.ok ()
  commit := Except.ok ()
  readLine := fun _ => Except.ok ("y".data)

/-- A two-statement document used to witness the abort behaviour. -/
def docW : List Str := ["+ T => a".data, "+ U => b".data]

/-- An oracle on which the first built statement fails to execute. -/
def oW : Oracle where
  openDatabase := Except.ok ()
  openView := fun _ => Except.ok ()
  execute := fun q =>
    if q = (buildQueries docW).getD 0 [] then Except.error ("boom".data) else Except.ok ()
  commit := Except.ok ()
  readLine := fun _ => Except.ok ("y".data)

/-! ## The panic-safe execution / retry layer (`core/error_handler.go`)

A wrapped Go operation either returns nil, returns an error, or panics;
this outcome is the type `FResult`.  `SafeExecute` models the Go function
of the same name: its result is again an `FResult`, where a `panicked`
result would mean a panic escaped to the caller.  For the retry loop the
wrapped function is modelled as a map from the attempt number (starting
at 1) to its outcome on that attempt, and the model returns, next to the
Go return value, the number of times the function was invoked. -/

/-- Outcome of invoking a wrapped operation once. -/
inductive FResult where
  | ok
  | fail (msg : Str)
  | panicked (msg : Str)
deriving DecidableEq, Repr

/-- `SafeExecute` from `core/error_handler.go`: runs `f`, wraps a non-nil
error as `fmt.Errorf("%s: %w", operation, err)`, and converts a recovered
panic to `fmt.Errorf("%s: panic: %v", operation, rec)`. -/
def SafeExecute (operation : Str) (r : FResult) : FResult :=
  match r with
  | FResult.ok => FResult.ok
  | FResult.fail m => FResult.fail (operation ++ ": ".data ++ m)
  | FResult.panicked p => FResult.fail (operation ++ ": panic: ".data ++ p)

/-- `transientErrors` from `core/error_handler.go`: the known retryable
COM/RPC failure tokens. -/
def transientErrors : List Str :=
  ["RPC_E_SERVERFAULT".data, "RPC_E_DISCONNECTED".data, "RPC_S_CALL_FAILED".data,
   "RPC_E_CALL_REJECTED".data, "CO_E_SERVER_EXEC_FAILURE".data]

/-- Go's `strings.Contains(s, sub)` for non-empty `sub`: true when `sub`
occurs somewhere in `s`. -/
def goContains (s sub : Str) : Bool :=
  (splitFirst sub s).isSome

/-- ASCII upper-casing of Go's `strings.ToUpper` (the transient tokens
are ASCII). -/
def goToUpperChar (c : Char) : Char :=
  if 'a' ≤ c ∧ c ≤ 'z' then Char.ofNat (c.toNat - 32) else c

/-- Go's `strings.ToUpper`, ASCII part. -/
def goToUpper (s : Str) : Str := s.map goToUpperChar

/-- `isTransientError` from `core/error_handler.go`, on the message of a
present error: upper-case the message and look for any known transient
token as a substring.  (The Go function returns false on a nil error; the
model only ever applies it to present errors, as the retry loop does.) -/
def isTransientError (msg : Str) : Bool :=
  transientErrors.any (fun token => goContains (goToUpper msg) token)

/-- The retry loop of `SafeExecuteWithRetry`: attempts are numbered from
1; a transient failure with attempts remaining backs off and retries, any
other failure (or exhaustion) breaks out with the last error.  Returns
the loop outcome and the number of invocations made.  The fuel is
`maxRetries - attempt + 1` at every call, so the zero-fuel branch is
never reached. -/
def retryAux (operation : Str) (f : Nat → FResult) (maxRetries : Nat) :
    Nat → Nat → FResult × Nat
  | _, 0 => (FResult.ok, 0)
  | attempt, fuel + 1 =>
    match SafeExecute operation (f attempt) with
    | FResult.ok => (FResult.ok, 1)
    | FResult.panicked p => (FResult.panicked p, 1)
    | FResult.fail e =>
      if isTransientError e ∧ attempt < maxRetries then
        let r := retryAux operation f maxRetries (attempt + 1) fuel
        (r.1, r.2 + 1)
      else (FResult.fail e, 1)

/-- `SafeExecuteWithRetry` from `core/error_handler.go`: rejects
`maxRetries < 1`, otherwise runs the attempt loop; a loop failure is
wrapped as `"%s: failed after %d attempts: %w"`.  The second component
counts invocations of the wrapped function. -/
def SafeExecuteWithRetry (operation : Str) (maxRetries : Int) (f : Nat → FResult) :
    FResult × Nat :=
  if maxRetries < 1 then
    (FResult.fail (operation ++ ": invalid maxRetries: ".data ++ (toString maxRetries).data), 0)
  else
    match retryAux operation f maxRetries.toNat 1 maxRetries.toNat with
    | (FResult.ok, k) => (FResult.ok, k)
    | (FResult.fail e, k) =>
      (FResult.fail (operation ++ ": failed after ".data ++ (toString maxRetries).data ++
        " attempts: ".data ++ e), k)
    | (FResult.panicked p, k) => (FResult.panicked p, k)

/-- An invocation outcome whose wrapped error is classified transient by
the retry loop. -/
def failsTransient (operation : Str) (r : FResult) : Bool :=
  match SafeExecute operation r with
  | FResult.fail e => isTransientError e
  | _ => false

/-- An invocation outcome whose wrapped error is classified
non-transient (fatal) by the retry loop. -/
def failsFatal (operation : Str) (r : FResult) : Bool :=
  match SafeExecute operation r with
  | FResult.fail e => !isTransientError e
  | _ => false

/-- The constant transient-failure function used by the retry witness. -/
def fW : Nat → FResult := fun _ => FResult.fail ("RPC_E_SERVERFAULT".data)

/-- Every key in the key set of `rows` is a key of some row of `rows`. -/
theorem mem_keySet (rows : List TableRow) :
    ∀ k, k ∈ keySet rows → ∃ r ∈ rows, rowKey r = k := by
  suffices hgen : ∀ (l : List TableRow) (acc : List Str),
      ∀ k, k ∈ l.foldl (fun acc r => if rowKey r ∈ acc then acc else acc ++ [rowKey r]) acc →
        k ∈ acc ∨ ∃ r ∈ l, rowKey r = k by
    intro k hk
    rcases hgen rows [] k hk with h | h
    · cases h
    · exact h
  intro l
  induction l with
  | nil => intro acc k hk; exact Or.inl hk
  | cons r rest ih =>
    intro acc k hk
    simp only [List.foldl_cons] at hk
    rcases ih _ k hk with h | h
    · by_cases hmem : rowKey r ∈ acc
      · simp only [if_pos hmem] at h; exact Or.inl h
      · simp only [if_neg hmem, List.mem_append, List.mem_singleton] at h
        rcases h with h | h
        · exact Or.inl h
        · exact Or.inr ⟨r, List.mem_cons_self r rest, h.symm⟩
    · rcases h with ⟨r', hr', hk'⟩
      exact Or.inr ⟨r', List.mem_cons_of_mem _ hr', hk'⟩

/-- Conversely, the key of every row of `rows` is in the key set. -/
theorem rowKey_mem_keySet (rows : List TableRow) :
    ∀ r ∈ rows, rowKey r ∈ keySet rows := by
  suffices hgen : ∀ (l : List TableRow) (acc : List Str) (r : TableRow), r ∈ l ∨ rowKey r ∈ acc →
      rowKey r ∈ l.foldl (fun acc r => if rowKey r ∈ acc then acc else acc ++ [rowKey r]) acc by
    intro r hr
    exact hgen rows [] r (Or.inl hr)
  intro l
  induction l with
  | nil =>
    intro acc r hr
    rcases hr with h | h
    · cases h
    · exact h
  | cons x rest ih =>
    intro acc r hr
    simp only [List.foldl_cons]
    rcases hr with h | h
    · rcases List.mem_cons.mp h with h | h
      · subst h
        by_cases hmem : rowKey r ∈ acc
        · exact ih _ _ (Or.inr (by simp only [if_pos hmem]; exact hmem))
        · refine ih _ _ (Or.inr ?_)
          simp only [if_neg hmem, List.mem_append, List.mem_singleton]
          exact Or.inr trivial
      · exact ih _ _ (Or.inl h)
    · refine ih _ _ (Or.inr ?_)
      by_cases hmem : rowKey x ∈ acc
      · simpa only [if_pos hmem]
      · simp only [if_neg hmem, List.mem_append, List.mem_singleton]
        exact Or.inl h

/-- **C6.** Diffing a table snapshot against an identical copy of itself
yields zero diff records: `compareTableRows table rows rows` is the empty
string, for every table name and every row list. -/
theorem compareTableRows_self (table : Str) (rows : List TableRow) :
    compareTableRows table rows rows = [] := by
  unfold compareTableRows
  have hfilter : (keySet rows).filter (fun k => decide (k ∉ keySet rows)) = [] := by
    rw [List.filter_eq_nil_iff]
    intro k hk
    simp only [decide_eq_true_eq, not_not]
    exact hk
  simp only [hfilter, List.map_nil, List.flatten_nil, List.append_nil]

/-- **C9.** Parsing `"+ Property => |LeadingVal|TrailingVal|"` succeeds
with operation `+`, table `Property` and values
`["", "LeadingVal", "TrailingVal", ""]`: leading and trailing `|`
characters produce empty-string elements at the corresponding
positions. -/
theorem parse_leading_trailing_pipes :
    parseDiffLine ("+ Property => |LeadingVal|TrailingVal|".data) =
      Except.ok ("+".data, "Property".data,
        [[], "LeadingVal".data, "TrailingVal".data, []]) := rfl

/-- **C4 (refuted: code bug).** The claim says an empty table name is
never accepted, yet `parseDiffLine` in `core/apply_transform.go` has no
empty-table check: the line `"+ => A|B"` parses successfully with the
empty table name.  (The repository's other revision of the same file,
`parseDiffLineV2`, does reject it.) -/
theorem parse_accepts_empty_table :
    parseDiffLine ("+ => A|B".data) =
      Except.ok ("+".data, ([] : Str), ["A".data, "B".data]) := rfl

/-- The other revision of the parser rejects an empty table name, as the
spec requires; this supports reading the missing check in
`core/apply_transform.go` as a slip rather than intent. -/
theorem parseV2_rejects_empty_table :
    parseDiffLineV2 ("+ => A|B".data) = Except.error ("no table name found".data) := rfl

/-! ## Lemmas about the string model -/

theorem dropWhile_idem (p : Char → Bool) (l : Str) :
    (l.dropWhile p).dropWhile p = l.dropWhile p := by
  induction l with
  | nil => rfl
  | cons c rest ih =>
    by_cases hc : p c
    · simp only [List.dropWhile_cons_of_pos hc]; exact ih
    · simp only [List.dropWhile_cons_of_neg hc, List.dropWhile_cons_of_neg hc]

theorem head_not_of_dropWhile_eq_self {p : Char → Bool} {c : Char} {l : Str}
    (h : List.dropWhile p (c :: l) = c :: l) : p c = false := by
  by_cases hc : p c
  · exfalso
    rw [List.dropWhile_cons_of_pos hc] at h
    have hle : (List.dropWhile p l).length ≤ l.length :=
      (List.dropWhile_sublist (p := p) (l := l)).length_le
    rw [h] at hle
    simp at hle
  · simpa using hc

theorem dropWhile_eq_self_of_head {p : Char → Bool} {l : Str}
    (h : ∀ x, l.head? = some x → p x = false) : l.dropWhile p = l := by
  cases l with
  | nil => rfl
  | cons c rest => exact List.dropWhile_cons_of_neg (by simp [h c rfl])

theorem trimRight_cons_of_neg {c : Char} (hc : goIsSpace c = false) (l : Str) :
    trimRight (c :: l) = c :: trimRight l := by
  unfold trimRight
  rw [List.reverse_cons, List.dropWhile_append]
  cases h : (l.reverse.dropWhile goIsSpace).isEmpty with
  | true =>
    rw [List.isEmpty_iff] at h
    simp [h, List.dropWhile_cons_of_neg (p := goIsSpace) (by simp [hc] : ¬ goIsSpace c = true)]
  | false => simp [h]

theorem trimRight_append_nonspace {c : Char} (hc : goIsSpace c = false) (s : Str) :
    trimRight (s ++ [c]) = s ++ [c] := by
  unfold trimRight
  rw [List.reverse_append, List.reverse_singleton, List.singleton_append,
    List.dropWhile_cons_of_neg (by simp [hc])]
  simp

theorem trimRight_append_space {c : Char} (hc : goIsSpace c = true) (s : Str) :
    trimRight (s ++ [c]) = trimRight s := by
  unfold trimRight
  rw [List.reverse_append, List.reverse_singleton, List.singleton_append,
    List.dropWhile_cons_of_pos (by simp [hc])]

theorem trimRight_idem (s : Str) : trimRight (trimRight s) = trimRight s := by
  unfold trimRight
  rw [List.reverse_reverse, dropWhile_idem]

theorem trimRight_append_of_ne_nil {b : Str} (hb : trimRight b ≠ []) (a : Str) :
    trimRight (a ++ b) = a ++ trimRight b := by
  unfold trimRight at hb ⊢
  rw [List.reverse_append, List.dropWhile_append]
  by_cases h : (b.reverse.dropWhile goIsSpace).isEmpty
  · rw [List.isEmpty_iff] at h
    rw [h] at hb
    simp at hb
  · simp only [h, if_neg, Bool.false_eq_true, not_false_eq_true]
    simp

theorem trimRight_length_le (s : Str) : (trimRight s).length ≤ s.length := by
  unfold trimRight
  simpa using (List.dropWhile_sublist (p := goIsSpace) (l := s.reverse)).length_le

/-- A string equal to its own trim neither starts nor ends with
whitespace: both halves of the trim fix it. -/
theorem trim_eq_self_parts {s : Str} (h : goTrimSpace s = s) :
    List.dropWhile goIsSpace s = s ∧ trimRight s = s := by
  unfold goTrimSpace at h
  have hd : List.dropWhile goIsSpace s = s := by
    have hsub : List.Sublist (List.dropWhile goIsSpace s) s := List.dropWhile_sublist goIsSpace
    refine hsub.eq_of_length ?_
    have h1 : s.length ≤ (List.dropWhile goIsSpace s).length := by
      conv_lhs => rw [← h]
      exact trimRight_length_le _
    exact Nat.le_antisymm hsub.length_le h1
  refine ⟨hd, ?_⟩
  rw [hd] at h
  exact h

theorem goTrimSpace_cons_space {c : Char} (hc : goIsSpace c = true) (l : Str) :
    goTrimSpace (c :: l) = goTrimSpace l := by
  unfold goTrimSpace
  rw [List.dropWhile_cons_of_pos (by simp [hc])]

theorem goTrimSpace_cons_nonspace {c : Char} (hc : goIsSpace c = false) (l : Str) :
    goTrimSpace (c :: l) = c :: trimRight l := by
  unfold goTrimSpace
  rw [List.dropWhile_cons_of_neg (by simp [hc]), trimRight_cons_of_neg hc]

theorem goTrimSpace_append_space {c : Char} (hc : goIsSpace c = true) (s : Str) :
    goTrimSpace (s ++ [c]) = goTrimSpace s := by
  unfold goTrimSpace
  rw [List.dropWhile_append]
  by_cases h : (s.dropWhile goIsSpace).isEmpty
  · rw [List.isEmpty_iff] at h
    rw [h]
    simp [List.dropWhile_cons_of_pos (by simp [hc] : goIsSpace c = true)]
  · simp only [h, if_neg, Bool.false_eq_true, not_false_eq_true]
    rw [List.isEmpty_iff] at h
    rw [trimRight_append_space hc]

theorem goTrimSpace_eq_self {s : Str} (hd : List.dropWhile goIsSpace s = s)
    (ht : trimRight s = s) : goTrimSpace s = s := by
  unfold goTrimSpace
  rw [hd, ht]

theorem goTrimSpace_idem (s : Str) : goTrimSpace (goTrimSpace s) = goTrimSpace s := by
  have ht : trimRight (goTrimSpace s) = goTrimSpace s := by
    unfold goTrimSpace
    exact trimRight_idem _
  have hd : List.dropWhile goIsSpace (goTrimSpace s) = goTrimSpace s := by
    refine dropWhile_eq_self_of_head ?_
    intro x hx
    unfold goTrimSpace trimRight at hx
    rw [List.head?_reverse] at hx
    set e := (List.dropWhile goIsSpace s).reverse.dropWhile goIsSpace with he
    have hsuf : e <:+ (List.dropWhile goIsSpace s).reverse := List.dropWhile_suffix _
    rcases hsuf with ⟨pre, hpre⟩
    have hen : e ≠ [] := by
      intro h0
      rw [h0] at hx
      simp at hx
    have hlast : ((List.dropWhile goIsSpace s).reverse).getLast? = e.getLast? := by
      rw [← hpre, List.getLast?_append]
      cases hge : e.getLast? with
      | none => exact absurd (List.getLast?_eq_none_iff.mp hge) hen
      | some y => simp [Option.or]
    rw [← hlast] at hx
    rw [← List.head?_reverse, List.reverse_reverse] at hx
    have := List.head?_dropWhile_not goIsSpace s
    rw [hx] at this
    exact this
  exact goTrimSpace_eq_self hd ht

/-- When `splitFirst` finds no separator, no decomposition of the string
has the separator as a prefix of its second part. -/
theorem splitFirst_none {sep : Str} (hsep : sep ≠ []) :
    ∀ s, splitFirst sep s = none →
      ∀ s₁ s₂, s = s₁ ++ s₂ → sep.isPrefixOf s₂ = false := by
  intro s
  induction s with
  | nil =>
    intro _ s₁ s₂ heq
    have h2 : s₂ = [] := (List.append_eq_nil.mp heq.symm).2
    subst h2
    cases sep with
    | nil => exact absurd rfl hsep
    | cons a as => rfl
  | cons c rest ih =>
    intro h s₁ s₂ heq
    rw [splitFirst] at h
    by_cases hpre : sep.isPrefixOf (c :: rest)
    · rw [if_pos hpre] at h
      cases h
    · rw [if_neg hpre] at h
      have hrest : splitFirst sep rest = none := by
        cases hr : splitFirst sep rest with
        | none => rfl
        | some pr =>
          rw [hr] at h
          cases pr
          cases h
      cases s₁ with
      | nil =>
        simp only [List.nil_append] at heq
        rw [← heq]
        exact Bool.eq_false_iff.mpr (fun hx => hpre (by simp [hx]))
      | cons d s₁' =>
        simp only [List.cons_append, List.cons.injEq] at heq
        exact ih hrest s₁' s₂ heq.2

/-- `splitFirst` on `a ++ sep ++ b` finds the separator exactly at the
boundary, provided no earlier occurrence exists. -/
theorem splitFirst_append {sep : Str} (hsep : sep ≠ []) (b : Str) :
    ∀ a, (∀ s₁ s₂, a = s₁ ++ s₂ → s₂ ≠ [] → sep.isPrefixOf (s₂ ++ sep ++ b) = false) →
      splitFirst sep (a ++ sep ++ b) = some (a, b) := by
  intro a
  induction a with
  | nil =>
    intro _
    simp only [List.nil_append]
    cases hs : sep with
    | nil => exact absurd hs hsep
    | cons x xs =>
      rw [← hs]
      have hne : sep ++ b ≠ [] := by
        cases sep with
        | nil => exact absurd rfl hsep
        | cons y ys => simp
      cases hsb : sep ++ b with
      | nil => exact absurd hsb hne
      | cons y ys =>
        rw [splitFirst, ← hsb]
        have hpre : sep.isPrefixOf (sep ++ b) = true := by
          rw [List.isPrefixOf_iff_prefix]
          exact List.prefix_append sep b
        rw [if_pos (by simp [hpre])]
        rw [List.drop_left]
  | cons c a' ih =>
    intro H
    have hpre : sep.isPrefixOf (c :: (a' ++ (sep ++ b))) = false := by
      have h0 := H [] (c :: a') rfl (by simp)
      simpa [List.append_assoc] using h0
    have hrec : splitFirst sep (a' ++ (sep ++ b)) = some (a', b) := by
      have h0 := ih (fun s₁ s₂ heq hne => H (c :: s₁) s₂ (by rw [heq]; rfl) hne)
      simpa [List.append_assoc] using h0
    show splitFirst sep ((c :: a') ++ sep ++ b) = _
    simp only [List.cons_append, List.append_assoc]
    rw [splitFirst]
    rw [if_neg (by simp only [hpre]; simp)]
    rw [hrec]

/-- If the table name contains no `"=>"`, then no occurrence of `"=>"`
starts strictly inside the serialized segment `" " ++ table ++ " "`. -/
theorem arrow_clean {table : Str} (ht : splitFirst sepArrow table = none) (b : Str) :
    ∀ s₁ s₂, (' ' :: (table ++ [' '])) = s₁ ++ s₂ → s₂ ≠ [] →
      sepArrow.isPrefixOf (s₂ ++ sepArrow ++ b) = false := by
  intro s₁ s₂ heq hne
  cases s₁ with
  | nil =>
    simp only [List.nil_append] at heq
    rw [← heq]
    rfl
  | cons d s₁' =>
    simp only [List.cons_append, List.cons.injEq] at heq
    obtain ⟨hd, htail⟩ := heq
    rcases List.append_eq_append_iff.mp htail with ⟨a', _, hsp⟩ | ⟨c', htab, hsp⟩
    · have ha : a' = [] ∧ s₂ = [' '] := by
        cases a' with
        | nil => simpa using hsp.symm
        | cons x xs =>
          exfalso
          simp only [List.cons_append, List.cons.injEq] at hsp
          exact hne (List.append_eq_nil.mp hsp.2.symm).2
      rw [ha.2]
      rfl
    · subst hsp
      cases c' with
      | nil => rfl
      | cons d' c'' =>
        cases hd' : decide (d' = '=') with
        | false =>
          simp only [List.cons_append, sepArrow, List.isPrefixOf]
          have hb : (('=' : Char) == d') = false := by
            rw [beq_eq_false_iff_ne]
            exact fun hx => (of_decide_eq_false hd') hx.symm
          rw [hb]
          rfl
        | true =>
          simp only [decide_eq_true_eq] at hd'
          subst hd'
          cases c'' with
          | nil =>
            simp only [List.cons_append, List.nil_append, sepArrow, List.isPrefixOf]
            rfl
          | cons e c''' =>
            cases he : decide (e = '>') with
            | false =>
              simp only [List.cons_append, sepArrow, List.isPrefixOf]
              have hb : (('>' : Char) == e) = false := by
                rw [beq_eq_false_iff_ne]
                exact fun hx => (of_decide_eq_false he) hx.symm
              simp [hb]
            | true =>
              exfalso
              simp only [decide_eq_true_eq] at he
              subst he
              have hfalse := splitFirst_none (by simp [sepArrow] : sepArrow ≠ ([] : Str))
                table ht s₁' ('=' :: '>' :: c''') htab
              simp [sepArrow, List.isPrefixOf] at hfalse

/-- `strings.Split` on a pipe-free string yields that single string. -/
theorem splitPipe_no_pipe {v : Str} (h : '|' ∉ v) : splitPipe v = [v] := by
  induction v with
  | nil => rfl
  | cons c rest ih =>
    have hc : ¬ c = '|' := fun hx => h (by simp [hx])
    have hr : '|' ∉ rest := fun hx => h (by simp [hx])
    rw [splitPipe, if_neg hc, ih hr]

/-- Splitting `v ++ "|" ++ t` with pipe-free `v` peels off `v`. -/
theorem splitPipe_append {v : Str} (h : '|' ∉ v) (t : Str) :
    splitPipe (v ++ '|' :: t) = v :: splitPipe t := by
  induction v with
  | nil =>
    simp only [List.nil_append]
    rw [splitPipe, if_pos rfl]
  | cons c rest ih =>
    have hc : ¬ c = '|' := fun hx => h (by simp [hx])
    have hr : '|' ∉ rest := fun hx => h (by simp [hx])
    simp only [List.cons_append]
    rw [splitPipe, if_neg hc, ih hr]

/-- Round trip of `strings.Split` after `strings.Join` on `"|"`, for a
non-empty list of pipe-free values. -/
theorem splitPipe_joinPipe {vs : List Str} (hne : vs ≠ [])
    (h : ∀ v ∈ vs, '|' ∉ v) : splitPipe (joinPipe vs) = vs := by
  induction vs with
  | nil => exact absurd rfl hne
  | cons v vs' ih =>
    cases vs' with
    | nil => exact splitPipe_no_pipe (h v (List.mem_cons_self v []))
    | cons w ws =>
      rw [joinPipe]
      rw [splitPipe_append (h v (List.mem_cons_self v _))]
      rw [ih (List.cons_ne_nil _ _) (fun x hx => h x (List.mem_cons_of_mem _ hx))]

/-- A map that fixes every element of a list fixes the list. -/
theorem map_eq_self_of {f : Str → Str} {l : List Str}
    (h : ∀ v ∈ l, f v = v) : l.map f = l := by
  induction l with
  | nil => rfl
  | cons v rest ih =>
    rw [List.map_cons, h v (List.mem_cons_self v rest),
      ih (fun x hx => h x (List.mem_cons_of_mem _ hx))]

/-- `strings.Join` of a non-empty value list other than `[""]` is
non-empty. -/
theorem joinPipe_ne_nil {vs : List Str} (hne : vs ≠ []) (hnz : vs ≠ [[]]) :
    joinPipe vs ≠ [] := by
  cases vs with
  | nil => exact absurd rfl hne
  | cons v vs' =>
    cases vs' with
    | nil =>
      rw [joinPipe]
      intro hx
      exact hnz (by rw [hx])
    | cons w ws =>
      rw [joinPipe]
      cases v <;> simp

/-- If every value neither starts with whitespace, the pipe-join does not
start with whitespace either (given the list is not the single empty
value). -/
theorem joinPipe_dropWhile {vs : List Str}
    (h : ∀ v ∈ vs, List.dropWhile goIsSpace v = v) (hnz : vs ≠ [[]]) :
    List.dropWhile goIsSpace (joinPipe vs) = joinPipe vs := by
  cases vs with
  | nil => rfl
  | cons v vs' =>
    cases vs' with
    | nil => exact h v (List.mem_cons_self v [])
    | cons w ws =>
      rw [joinPipe]
      cases v with
      | nil =>
        simp only [List.nil_append]
        exact List.dropWhile_cons_of_neg (by simp [goIsSpace])
      | cons c v'' =>
        have hc : goIsSpace c = false :=
          head_not_of_dropWhile_eq_self (h (c :: v'') (List.mem_cons_self _ _))
        simp only [List.cons_append]
        exact List.dropWhile_cons_of_neg (by simp [hc])

/-- If every value has no trailing whitespace, neither does the
pipe-join. -/
theorem joinPipe_trimRight {vs : List Str}
    (h : ∀ v ∈ vs, trimRight v = v) : trimRight (joinPipe vs) = joinPipe vs := by
  induction vs with
  | nil => rfl
  | cons v vs' ih =>
    cases vs' with
    | nil => exact h v (List.mem_cons_self v [])
    | cons w ws =>
      rw [joinPipe]
      have hJ : trimRight (joinPipe (w :: ws)) = joinPipe (w :: ws) :=
        ih (fun x hx => h x (List.mem_cons_of_mem _ hx))
      have hbar : trimRight ('|' :: joinPipe (w :: ws)) = '|' :: joinPipe (w :: ws) := by
        rw [trimRight_cons_of_neg (by simp [goIsSpace]), hJ]
      rw [trimRight_append_of_ne_nil (by rw [hbar]; simp), hbar]

/-- Evaluation of `parseDiffLine` on a line whose trim has the serialized
shape `c ++ " " ++ T ++ " " ++ "=>" ++ b`, for a clean table name `T`. -/
theorem parseDiffLine_eval {line : Str} {c : Char} {T b : Str}
    (hline : goTrimSpace line = c :: ((' ' :: (T ++ [' '])) ++ (sepArrow ++ b)))
    (hc : c = '+' ∨ c = '-')
    (harrow : splitFirst sepArrow T = none)
    (hT : goTrimSpace T = T) :
    parseDiffLine line =
      (if goTrimSpace b = [] then Except.ok ([c], T, ([] : List Str))
       else Except.ok ([c], T, (splitPipe (goTrimSpace b)).map goTrimSpace)) := by
  have hsplit : splitFirst sepArrow ((' ' :: (T ++ [' '])) ++ (sepArrow ++ b)) =
      some (' ' :: (T ++ [' ']), b) := by
    have h0 := splitFirst_append (show sepArrow ≠ ([] : Str) by simp [sepArrow]) b
      (' ' :: (T ++ [' '])) (arrow_clean harrow b)
    simpa [List.append_assoc] using h0
  have htab : goTrimSpace (' ' :: (T ++ [' '])) = T := by
    rw [goTrimSpace_cons_space (by rfl), goTrimSpace_append_space (by rfl), hT]
  simp only [parseDiffLine, hline, hsplit, htab]
  rw [if_pos hc]

/-- The trim of a serialized record line, when the values are empty. -/
theorem trim_serialize_nil {op : Op} {T : Str} :
    goTrimSpace (serializeDiffRecord ⟨op, T, []⟩) =
      opChar op :: ((' ' :: (T ++ [' '])) ++ (sepArrow ++ [])) := by
  have hop : goIsSpace (opChar op) = false := by cases op <;> rfl
  simp only [serializeDiffRecord]
  rw [goTrimSpace_cons_nonspace hop]
  have hz : (' ' :: (T ++ (' ' :: '=' :: '>' :: ' ' :: joinPipe []))) =
      ((' ' :: (T ++ [' ', '='])) ++ ['>']) ++ [' '] := by
    simp [joinPipe]
  rw [hz, trimRight_append_space (by rfl), trimRight_append_nonspace (by rfl)]
  simp [sepArrow, List.append_assoc]

/-- The trim of a serialized record line, when the joined values are
non-empty and carry no surrounding whitespace. -/
theorem trim_serialize_cons {op : Op} {T J : Str} (hJne : J ≠ [])
    (hJtr : trimRight J = J) :
    goTrimSpace (opChar op :: ' ' :: (T ++ (' ' :: '=' :: '>' :: ' ' :: J))) =
      opChar op :: ((' ' :: (T ++ [' '])) ++ (sepArrow ++ (' ' :: J))) := by
  have hop : goIsSpace (opChar op) = false := by cases op <;> rfl
  rw [goTrimSpace_cons_nonspace hop]
  have hz : (' ' :: (T ++ (' ' :: '=' :: '>' :: ' ' :: J))) =
      (' ' :: (T ++ [' ', '=', '>', ' '])) ++ J := by
    simp [List.append_assoc]
  rw [hz, trimRight_append_of_ne_nil (by rw [hJtr]; exact hJne)]
  rw [hJtr]
  simp [sepArrow, List.append_assoc]

/-- **C3 (amended round-trip).** For every `DiffRecord` whose table name
is trimmed and free of `"=>"`, whose values are each trimmed and free of
`'|'`, and whose value list is not the single empty value `[""]`,
parsing the serialized diff line recovers the record exactly:
`parse(serialize(record)) = record`. -/
theorem parse_serialize_roundtrip (r : DiffRecord)
    (htable : goTrimSpace r.table = r.table)
    (harrow : splitFirst sepArrow r.table = none)
    (hvals : ∀ v ∈ r.values, goTrimSpace v = v)
    (hpipe : ∀ v ∈ r.values, '|' ∉ v)
    (hnz : r.values ≠ [[]]) :
    parseRecord (serializeDiffRecord r) = Except.ok r := by
  rcases r with ⟨op, T, vs⟩
  simp only at htable harrow hvals hpipe hnz
  have hc : opChar op = '+' ∨ opChar op = '-' := by cases op <;> simp [opChar]
  by_cases hvs : vs = []
  · subst hvs
    have hline := @trim_serialize_nil op T
    have hparse := parseDiffLine_eval hline hc harrow htable
    rw [if_pos (by rfl)] at hparse
    unfold parseRecord
    rw [hparse]
    cases op <;> simp [opChar]
  · have hJtr : trimRight (joinPipe vs) = joinPipe vs :=
      joinPipe_trimRight (fun v hv => (trim_eq_self_parts (hvals v hv)).2)
    have hJdw : List.dropWhile goIsSpace (joinPipe vs) = joinPipe vs :=
      joinPipe_dropWhile (fun v hv => (trim_eq_self_parts (hvals v hv)).1) hnz
    have hJne : joinPipe vs ≠ [] := joinPipe_ne_nil hvs hnz
    have hline : goTrimSpace (serializeDiffRecord ⟨op, T, vs⟩) =
        opChar op :: ((' ' :: (T ++ [' '])) ++ (sepArrow ++ (' ' :: joinPipe vs))) := by
      simp only [serializeDiffRecord]
      exact trim_serialize_cons hJne hJtr
    have hparse := parseDiffLine_eval hline hc harrow htable
    have hval : goTrimSpace (' ' :: joinPipe vs) = joinPipe vs := by
      rw [goTrimSpace_cons_space (by rfl)]
      exact goTrimSpace_eq_self hJdw hJtr
    rw [hval, if_neg hJne] at hparse
    rw [splitPipe_joinPipe hvs hpipe, map_eq_self_of hvals] at hparse
    unfold parseRecord
    rw [hparse]
    cases op <;> simp [opChar]

/-- **C3 (counterexample to the claim as stated).** The record
`{op = Add, table = "T", values = [""]}` contains no `'|'` in its values,
yet serializing and re-parsing it loses the single empty value: the
parser returns the record with zero values, not the original record.  So
`parse(serialize(record)) == record` does not hold for every pipe-free
record. -/
theorem parse_serialize_not_id :
    (∀ v ∈ (DiffRecord.mk Op.add "T".data [[]]).values, '|' ∉ v) ∧
      parseRecord (serializeDiffRecord (DiffRecord.mk Op.add "T".data [[]])) =
        Except.ok (DiffRecord.mk Op.add "T".data []) ∧
      parseRecord (serializeDiffRecord (DiffRecord.mk Op.add "T".data [[]])) ≠
        Except.ok (DiffRecord.mk Op.add "T".data [[]]) := by
  refine ⟨by decide, rfl, by decide⟩

/-- Witness for the amended round-trip theorem at a concrete record. -/
theorem parse_serialize_roundtrip_witness :
    parseRecord (serializeDiffRecord
        (DiffRecord.mk Op.add "Property".data ["ProductVersion".data, "9.9.9".data])) =
      Except.ok (DiffRecord.mk Op.add "Property".data
        ["ProductVersion".data, "9.9.9".data]) :=
  parse_serialize_roundtrip _ (by decide) (by decide) (by decide) (by decide) (by decide)

/-- **C10.** Every value returned by a successful `parseDiffLine` is
individually trimmed of surrounding whitespace: the parser applies
`strings.TrimSpace` to each split element, so parsed values never carry
leading or trailing whitespace even when the input line does. -/
theorem parseDiffLine_values_trimmed (line op table : Str) (values : List Str)
    (h : parseDiffLine line = Except.ok (op, table, values)) :
    ∀ v ∈ values, goTrimSpace v = v := by
  simp only [parseDiffLine] at h
  cases hL : goTrimSpace line with
  | nil => simp only [hL] at h; cases h
  | cons c rest =>
    simp only [hL] at h
    by_cases hc : c = '+' ∨ c = '-'
    · rw [if_pos hc] at h
      cases hS : splitFirst sepArrow rest with
      | none => simp only [hS] at h; cases h
      | some pr =>
        obtain ⟨p0, p1⟩ := pr
        simp only [hS] at h
        by_cases hv : goTrimSpace p1 = []
        · rw [if_pos hv] at h
          simp only [Except.ok.injEq, Prod.mk.injEq] at h
          rw [← h.2.2]
          intro v hv'
          cases hv'
        · rw [if_neg hv] at h
          simp only [Except.ok.injEq, Prod.mk.injEq] at h
          rw [← h.2.2]
          intro v hv'
          obtain ⟨w, _, hw⟩ := List.mem_map.mp hv'
          rw [← hw]
          exact goTrimSpace_idem w
    · rw [if_neg hc] at h; cases h

/-- Witness for C10: parsing `"+ T => a | b"` yields the values
`["a", "b"]`, each trimmed. -/
theorem parseDiffLine_values_trimmed_witness :
    goTrimSpace ("a".data) = "a".data :=
  parseDiffLine_values_trimmed ("+ T => a | b".data) ("+".data) ("T".data)
    ["a".data, "b".data] rfl ("a".data) (by decide)

/-- **C1 (refuted: code bug).** The claim (and spec §4.5/§7) says a
document yielding zero valid statements makes `ApplyTransform` fail fast
with an error, without opening a write session and without `Commit`.  The
code in `core/apply_transform.go` instead opens the database before
parsing and, in non-dry-run mode, still commits and returns success: on
the empty document (and on a document whose only line is invalid) the
result is `ok` and the trace contains both the database open and the
commit.  (The repository's other revision of this file does fail fast
before opening a session.) -/
theorem applyTransform_empty_doc_commits :
    ApplyTransform allOkOracle [] false false =
      (Except.ok (), [Event.openDb, Event.commit]) ∧
    ApplyTransform allOkOracle ["X InvalidLine".data] false false =
      (Except.ok (), [Event.openDb, Event.commit]) :=
  ⟨rfl, rfl⟩

/-- In dry-run mode the query loop makes no database call at all. -/
theorem runQueries_dryRun (o : Oracle) (interactive : Bool) :
    ∀ (qs : List Str) (i : Nat), (runQueries o true interactive qs i).2 = [] := by
  intro qs
  induction qs with
  | nil => intro i; rfl
  | cons q rest ih =>
    intro i
    cases interactive with
    | false =>
      show (runQueries o true false (q :: rest) i).2 = []
      simp only [runQueries, execStep, if_pos, if_true, Bool.false_eq_true, if_false]
      simpa using ih (i + 1)
    | true =>
      show (runQueries o true true (q :: rest) i).2 = []
      simp only [runQueries]
      cases o.readLine i with
      | error e => rfl
      | ok resp =>
        by_cases hy : goTrimSpace (goToLower resp) = "y".data ∨
            goTrimSpace (goToLower resp) = "yes".data
        · simp only [if_pos hy, execStep, if_true]
          simpa using ih (i + 1)
        · simp only [if_neg hy]
          exact ih (i + 1)

/-- **C5.** Applying any transform document with dry-run enabled makes no
database call other than opening the target: no statement is executed
(no `OpenView`/`Execute` call) and `Commit` is never called, so the
target's row set is unchanged, regardless of document content,
interactivity and oracle outcomes. -/
theorem applyTransform_dryRun_no_effect (o : Oracle) (doc : List Str)
    (interactive : Bool) :
    (ApplyTransform o doc true interactive).2 = [Event.openDb] ∧
    (∀ i q, Event.execute i q ∉ (ApplyTransform o doc true interactive).2 ∧
      Event.openView i q ∉ (ApplyTransform o doc true interactive).2) ∧
    Event.commit ∉ (ApplyTransform o doc true interactive).2 := by
  have h2 : (ApplyTransform o doc true interactive).2 = [Event.openDb] := by
    unfold ApplyTransform
    cases hdb : o.openDatabase with
    | error e => rfl
    | ok u =>
      cases hrun : runQueries o true interactive (buildQueries doc) 0 with
      | mk res evs =>
        have hevs : evs = [] := by
          have := runQueries_dryRun o interactive (buildQueries doc) 0
          rw [hrun] at this
          exact this
        subst hevs
        cases res <;> simp [hrun]
  refine ⟨h2, fun i q => ?_, ?_⟩ <;> rw [h2] <;> simp

/-- If the statements at positions `0..i-1` succeed and the statement at
position `i` fails (`OpenView` or `Execute` errors), the non-interactive,
non-dry-run query loop returns an error, and every database call in its
trace is an `OpenView`/`Execute` at a position not beyond `i`. -/
theorem runQueries_fail (o : Oracle) :
    ∀ (qs : List Str) (j i : Nat), i < qs.length →
      (∀ m, m < i → o.openView (qs.getD m []) = Except.ok () ∧
        o.execute (qs.getD m []) = Except.ok ()) →
      ((∃ e, o.openView (qs.getD i []) = Except.error e) ∨
        (o.openView (qs.getD i []) = Except.ok () ∧
          ∃ e, o.execute (qs.getD i []) = Except.error e)) →
      ∃ e evs, runQueries o false false qs j = (Except.error e, evs) ∧
        ∀ ev ∈ evs, ∃ m q, m ≤ j + i ∧
          (ev = Event.openView m q ∨ ev = Event.execute m q) := by
  intro qs
  induction qs with
  | nil =>
    intro j i hi _ _
    exact absurd hi (by simp)
  | cons q rest ih =>
    intro j i hi hpre hfail
    cases i with
    | zero =>
      simp only [List.getD_cons_zero] at hfail
      rcases hfail with ⟨e, he⟩ | ⟨hov, e, he⟩
      · refine ⟨"OpenView error for query [".data ++ q ++ "]: ".data ++ e,
          [Event.openView j q], ?_, ?_⟩
        · show runQueries o false false (q :: rest) j = _
          simp only [runQueries, execStep, if_false, Bool.false_eq_true, he]
        · intro ev hev
          simp only [List.mem_singleton] at hev
          exact ⟨j, q, Nat.le_refl _, Or.inl hev⟩
      · refine ⟨"Execute error for query [".data ++ q ++ "]: ".data ++ e,
          [Event.openView j q, Event.execute j q], ?_, ?_⟩
        · show runQueries o false false (q :: rest) j = _
          simp only [runQueries, execStep, if_false, Bool.false_eq_true, hov, he]
        · intro ev hev
          simp only [List.mem_cons, List.mem_singleton] at hev
          rcases hev with hev | hev | hfalse
          · exact ⟨j, q, Nat.le_refl _, Or.inl hev⟩
          · exact ⟨j, q, Nat.le_refl _, Or.inr hev⟩
          · cases hfalse
    | succ i' =>
      have h0 := hpre 0 (Nat.succ_pos i')
      simp only [List.getD_cons_zero] at h0
      have hrest := ih (j + 1) i' (Nat.lt_of_succ_lt_succ hi)
        (fun m hm => by
          have := hpre (m + 1) (Nat.succ_lt_succ hm)
          simpa using this)
        (by simpa using hfail)
      obtain ⟨e, evs, hrun, hmem⟩ := hrest
      refine ⟨e, [Event.openView j q, Event.execute j q] ++ evs, ?_, ?_⟩
      · show runQueries o false false (q :: rest) j = _
        simp only [runQueries, execStep, if_false, Bool.false_eq_true, h0.1, h0.2, hrun]
      · intro ev hev
        simp only [List.cons_append, List.nil_append, List.mem_cons] at hev
        rcases hev with hev | hev | hev
        · exact ⟨j, q, by omega, Or.inl hev⟩
        · exact ⟨j, q, by omega, Or.inr hev⟩
        · obtain ⟨m, q', hm, hq⟩ := hmem ev hev
          exact ⟨m, q', by omega, hq⟩

/-- **C2.** If, in non-dry-run mode, the statements before position `i`
execute successfully and the statement at position `i` fails (`OpenView`
or `Execute` returns an error), `ApplyTransform` returns an error, never
calls `Commit` (no partial commit), and makes no database call for any
statement after position `i`. -/
theorem applyTransform_aborts_on_failure (o : Oracle) (doc : List Str) (i : Nat)
    (hdb : o.openDatabase = Except.ok ())
    (hi : i < (buildQueries doc).length)
    (hpre : ∀ m, m < i → o.openView ((buildQueries doc).getD m []) = Except.ok () ∧
      o.execute ((buildQueries doc).getD m []) = Except.ok ())
    (hfail : (∃ e, o.openView ((buildQueries doc).getD i []) = Except.error e) ∨
      (o.openView ((buildQueries doc).getD i []) = Except.ok () ∧
        ∃ e, o.execute ((buildQueries doc).getD i []) = Except.error e)) :
    (∃ e, (ApplyTransform o doc false false).1 = Except.error e) ∧
    Event.commit ∉ (ApplyTransform o doc false false).2 ∧
    ∀ m q, i < m → Event.openView m q ∉ (ApplyTransform o doc false false).2 ∧
      Event.execute m q ∉ (ApplyTransform o doc false false).2 := by
  obtain ⟨e, evs, hrun, hmem⟩ :=
    runQueries_fail o (buildQueries doc) 0 i hi hpre hfail
  have happ : ApplyTransform o doc false false = (Except.error e, Event.openDb :: evs) := by
    unfold ApplyTransform
    rw [hdb]
    simp only [hrun]
  rw [happ]
  refine ⟨⟨e, rfl⟩, ?_, ?_⟩
  · intro hc
    simp only [List.mem_cons] at hc
    rcases hc with hc | hc
    · cases hc
    · obtain ⟨m, q', _, hq⟩ := hmem _ hc
      rcases hq with hq | hq <;> cases hq
  · intro m q hm
    constructor
    · intro hc
      simp only [List.mem_cons] at hc
      rcases hc with hc | hc
      · cases hc
      · obtain ⟨m', q', hm', hq⟩ := hmem _ hc
        rcases hq with hq | hq
        · injection hq with h1 h2
          omega
        · simp at hq
    · intro hc
      simp only [List.mem_cons] at hc
      rcases hc with hc | hc
      · cases hc
      · obtain ⟨m', q', hm', hq⟩ := hmem _ hc
        rcases hq with hq | hq
        · simp at hq
        · injection hq with h1 h2
          omega

/-- Witness for C2 at a concrete oracle and document: the first statement
fails to execute, so the run errors, commits nothing, and touches no
later statement. -/
theorem applyTransform_aborts_on_failure_witness :
    (∃ e, (ApplyTransform oW docW false false).1 = Except.error e) ∧
    Event.commit ∉ (ApplyTransform oW docW false false).2 ∧
    ∀ m q, 0 < m → Event.openView m q ∉ (ApplyTransform oW docW false false).2 ∧
      Event.execute m q ∉ (ApplyTransform oW docW false false).2 :=
  applyTransform_aborts_on_failure oW docW 0 rfl (by decide)
    (fun m hm => absurd hm (Nat.not_lt_zero m))
    (Or.inr ⟨rfl, ⟨"boom".data, by decide⟩⟩)

/-- **C8.** `SafeExecute` never lets a panic escape: for every operation
name and every outcome of the wrapped function the result is not a
panic; a returned error is wrapped with the operation name, and a panic
is converted into a returned error on the same channel. -/
theorem safeExecute_no_panic_and_wraps (operation : Str) (r : FResult) :
    (∀ p, SafeExecute operation r ≠ FResult.panicked p) ∧
    (∀ m, r = FResult.fail m →
      SafeExecute operation r = FResult.fail (operation ++ ": ".data ++ m)) ∧
    (∀ p, r = FResult.panicked p →
      SafeExecute operation r = FResult.fail (operation ++ ": panic: ".data ++ p)) := by
  cases r <;> simp [SafeExecute]

/-- Witness for C8: a concrete panic is converted to a wrapped error. -/
theorem safeExecute_no_panic_and_wraps_witness :
    SafeExecute ("op".data) (FResult.panicked ("boom".data)) =
      FResult.fail ("op".data ++ ": panic: ".data ++ "boom".data) :=
  (safeExecute_no_panic_and_wraps ("op".data) (FResult.panicked ("boom".data))).2.2
    ("boom".data) rfl

/-- The retry loop never makes more invocations than it has fuel. -/
theorem retryAux_count_le (operation : Str) (f : Nat → FResult) (maxRetries : Nat) :
    ∀ (fuel attempt : Nat), (retryAux operation f maxRetries attempt fuel).2 ≤ fuel := by
  intro fuel
  induction fuel with
  | zero => intro attempt; simp [retryAux]
  | succ fuel ih =>
    intro attempt
    rw [retryAux]
    cases SafeExecute operation (f attempt) with
    | ok => simp
    | panicked p => simp
    | fail e =>
      by_cases hc : isTransientError e ∧ attempt < maxRetries
      · simp only [if_pos hc]
        have := ih (attempt + 1)
        simpa using Nat.succ_le_succ this
      · simp only [if_neg hc]
        simp

/-- If attempts `attempt .. attempt+k-1` fail transiently and attempt
`attempt+k` fails fatally within the budget, the loop stops right there:
`k + 1` invocations and the fatal error as outcome. -/
theorem retryAux_fatal (operation : Str) (f : Nat → FResult) (maxRetries : Nat) :
    ∀ (k attempt fuel : Nat), attempt + k ≤ maxRetries → maxRetries + 1 ≤ attempt + fuel →
      (∀ t, attempt ≤ t → t < attempt + k → failsTransient operation (f t) = true) →
      failsFatal operation (f (attempt + k)) = true →
      ∃ e, retryAux operation f maxRetries attempt fuel = (FResult.fail e, k + 1) := by
  intro k
  induction k with
  | zero =>
    intro attempt fuel hle hfuel _ hfatal
    cases fuel with
    | zero => omega
    | succ fuel =>
      simp only [Nat.add_zero] at hfatal
      cases hse : SafeExecute operation (f attempt) with
      | ok => simp [failsFatal, hse] at hfatal
      | panicked p => simp [failsFatal, hse] at hfatal
      | fail e =>
        simp only [failsFatal, hse, Bool.not_eq_true'] at hfatal
        refine ⟨e, ?_⟩
        simp only [retryAux, hse]
        rw [if_neg (by simp [hfatal])]
  | succ k ih =>
    intro attempt fuel hle hfuel htrans hfatal
    cases fuel with
    | zero => omega
    | succ fuel =>
      have h0 := htrans attempt (Nat.le_refl _) (by omega)
      cases hse : SafeExecute operation (f attempt) with
      | ok => simp [failsTransient, hse] at h0
      | panicked p => simp [failsTransient, hse] at h0
      | fail e =>
        simp only [failsTransient, hse] at h0
        obtain ⟨e', he'⟩ := ih (attempt + 1) fuel (by omega) (by omega)
          (fun t ht1 ht2 => htrans t (by omega) (by omega))
          (by have heq : attempt + 1 + k = attempt + (k + 1) := by omega
              rw [heq]; exact hfatal)
        refine ⟨e', ?_⟩
        simp only [retryAux, hse]
        rw [if_pos ⟨h0, by omega⟩]
        simp only [he']

/-- If every attempt up to the budget fails transiently, the loop runs
through the whole budget: exactly `fuel` invocations, final outcome an
error. -/
theorem retryAux_all_transient (operation : Str) (f : Nat → FResult) (maxRetries : Nat) :
    ∀ (fuel attempt : Nat), attempt ≤ maxRetries → attempt + fuel = maxRetries + 1 →
      (∀ t, attempt ≤ t → t ≤ maxRetries → failsTransient operation (f t) = true) →
      ∃ e, retryAux operation f maxRetries attempt fuel = (FResult.fail e, fuel) := by
  intro fuel
  induction fuel with
  | zero => intro attempt h1 h2 _; omega
  | succ fuel ih =>
    intro attempt h1 h2 htrans
    have h0 := htrans attempt (Nat.le_refl _) h1
    cases hse : SafeExecute operation (f attempt) with
    | ok => simp [failsTransient, hse] at h0
    | panicked p => simp [failsTransient, hse] at h0
    | fail e =>
      simp only [failsTransient, hse] at h0
      by_cases hlt : attempt < maxRetries
      · obtain ⟨e', he'⟩ := ih (attempt + 1) (by omega) (by omega)
          (fun t ht1 ht2 => htrans t (by omega) ht2)
        refine ⟨e', ?_⟩
        simp only [retryAux, hse]
        rw [if_pos ⟨h0, hlt⟩]
        simp only [he']
      · refine ⟨e, ?_⟩
        simp only [retryAux, hse]
        rw [if_neg (by intro hand; exact hlt hand.2)]
        have hf0 : fuel = 0 := by omega
        subst hf0
        rfl

/-- **C7.** For every operation, wrapped function and `maxRetries ≥ 1`:
(a) if the first `k` invocations fail transiently (within budget) and
invocation `k+1` fails with an error whose message matches no transient
token, `SafeExecuteWithRetry` makes exactly `k+1` invocations — one more
than the preceding transient failures — and returns an error; (b) if
every invocation in the budget fails transiently, it makes exactly
`maxRetries` invocations and returns an error; (c) in all cases the
number of invocations never exceeds `maxRetries`. -/
theorem safeExecuteWithRetry_budget (operation : Str) (f : Nat → FResult)
    (maxRetries : Int) (h1 : 1 ≤ maxRetries) :
    (∀ k : Nat, (k : Int) + 1 ≤ maxRetries →
      (∀ t, 1 ≤ t → t ≤ k → failsTransient operation (f t) = true) →
      failsFatal operation (f (k + 1)) = true →
      (SafeExecuteWithRetry operation maxRetries f).2 = k + 1 ∧
        ∃ e, (SafeExecuteWithRetry operation maxRetries f).1 = FResult.fail e) ∧
    ((∀ t : Nat, 1 ≤ t → (t : Int) ≤ maxRetries → failsTransient operation (f t) = true) →
      (SafeExecuteWithRetry operation maxRetries f).2 = maxRetries.toNat ∧
        ∃ e, (SafeExecuteWithRetry operation maxRetries f).1 = FResult.fail e) ∧
    (SafeExecuteWithRetry operation maxRetries f).2 ≤ maxRetries.toNat := by
  have hn1 : 1 ≤ maxRetries.toNat := by omega
  have hnot : ¬ maxRetries < 1 := by omega
  refine ⟨?_, ?_, ?_⟩
  · intro k hk htrans hfatal
    have hk' : 1 + k ≤ maxRetries.toNat := by omega
    obtain ⟨e, he⟩ := retryAux_fatal operation f maxRetries.toNat k 1 maxRetries.toNat
      hk' (by omega)
      (fun t ht1 ht2 => htrans t ht1 (by omega))
      (by have heq : 1 + k = k + 1 := by omega
          rw [heq]; exact hfatal)
    have happ : SafeExecuteWithRetry operation maxRetries f =
        (FResult.fail (operation ++ ": failed after ".data ++ (toString maxRetries).data ++
          " attempts: ".data ++ e), k + 1) := by
      unfold SafeExecuteWithRetry
      rw [if_neg hnot]
      simp only [he]
    rw [happ]
    exact ⟨rfl, _, rfl⟩
  · intro htrans
    obtain ⟨e, he⟩ := retryAux_all_transient operation f maxRetries.toNat
      maxRetries.toNat 1 hn1 (by omega)
      (fun t ht1 ht2 => htrans t ht1 (by omega))
    have happ : SafeExecuteWithRetry operation maxRetries f =
        (FResult.fail (operation ++ ": failed after ".data ++ (toString maxRetries).data ++
          " attempts: ".data ++ e), maxRetries.toNat) := by
      unfold SafeExecuteWithRetry
      rw [if_neg hnot]
      simp only [he]
    rw [happ]
    exact ⟨rfl, _, rfl⟩
  · unfold SafeExecuteWithRetry
    rw [if_neg hnot]
    have hle := retryAux_count_le operation f maxRetries.toNat maxRetries.toNat 1
    cases hr : retryAux operation f maxRetries.toNat 1 maxRetries.toNat with
    | mk res k =>
      rw [hr] at hle
      cases res <;> simpa using hle

/-- Witness for C7 at a concrete run: an operation failing with
`RPC_E_SERVERFAULT` on every attempt, budget 2, is invoked exactly twice
and the final result is an error. -/
theorem safeExecuteWithRetry_budget_witness :
    (SafeExecuteWithRetry ("op".data) 2 fW).2 = (2 : Int).toNat ∧
      ∃ e, (SafeExecuteWithRetry ("op".data) 2 fW).1 = FResult.fail e :=
  (safeExecuteWithRetry_budget ("op".data) fW 2 (by decide)).2.1
    (fun t _ _ =>
      show failsTransient ("op".data) (FResult.fail ("RPC_E_SERVERFAULT".data)) = true
      from by decide)
